import Mathlib

/-!
Verification development for the model-bridge gateway.

Each Rust function relevant to the verified properties is shallowly embedded
as an executable Lean definition: machine integers become `Nat` (with explicit
saturation where the source uses saturating arithmetic), `HashMap`s become
association lists, `VecDeque`s become lists with the front at the head, and
fallible operations return `Option`/`Except`.  The theorems at the end of the
file settle the specification claims against these definitions.
-/

namespace ModelBridge

/-! ## core_domain/types.rs -/

/-- `YearMonth` from types.rs; `year : u16`, `month : u8`. -/
structure YearMonth where
  year : Nat
  month : Nat
deriving DecidableEq, Repr

/-- `YearMonth::new` asserts `1 ≤ month ≤ 12`; the assertion failure (panic)
is modelled as `none`. -/
def YearMonth.new? (year month : Nat) : Option YearMonth :=
  if 1 ≤ month ∧ month ≤ 12 then some ⟨year, month⟩ else none

/-- The byte sequence of an `ApiKey` (`String::as_bytes`), each byte `< 256`
in the program; the comparison below is byte-wise so plain `Nat` suffices. -/
abbrev ApiKeyBytes := List Nat

/-- `impl PartialEq for ApiKey` from types.rs: starts the accumulator at 1
when lengths differ, then ORs in the XOR of each pair of bytes, reading 0
past the end of the shorter key; equal iff the accumulator ends at 0. -/
def apiKeyEq (a b : ApiKeyBytes) : Bool :=
  let maxLen := max a.length b.length
  let init : Nat := if a.length = b.length then 0 else 1
  let result := (List.range maxLen).foldl
    (fun r i => r ||| ((a.getD i 0) ^^^ (b.getD i 0))) init
  result == 0

/-! ## handler.rs — period computation -/

/-- `current_year_month` from handler.rs, parameterised by the Unix-seconds
clock reading.  The `as u16` cast wraps modulo `2^16`; `YearMonth::new?`
models the assertion in `YearMonth::new`, so `none` means a panic. -/
def current_year_month (secs : Nat) : Option YearMonth :=
  let days := secs / 86400
  let year := (1970 + days / 365) % 65536
  let month := min ((days % 365) / 30 + 1) 12
  YearMonth.new? year month

/-! ## Helper lemmas for the byte-wise key comparison -/

lemma nat_lor_eq_zero (a b : Nat) : a ||| b = 0 ↔ a = 0 ∧ b = 0 := by
  constructor
  · intro h
    refine ⟨Nat.zero_of_testBit_eq_false fun i => ?_, Nat.zero_of_testBit_eq_false fun i => ?_⟩
    · have := congrArg (fun n => Nat.testBit n i) h
      simp [Nat.testBit_lor] at this
      exact this.1
    · have := congrArg (fun n => Nat.testBit n i) h
      simp [Nat.testBit_lor] at this
      exact this.2
  · rintro ⟨rfl, rfl⟩
    rfl

lemma foldl_lor_eq_zero (f : Nat → Nat) :
    ∀ (l : List Nat) (init : Nat),
      (l.foldl (fun r i => r ||| f i) init = 0) ↔ (init = 0 ∧ ∀ i ∈ l, f i = 0) := by
  intro l
  induction l with
  | nil => simp
  | cons a t ih =>
    intro init
    simp only [List.foldl_cons, ih, nat_lor_eq_zero, List.mem_cons]
    constructor
    · rintro ⟨⟨h1, h2⟩, h3⟩
      exact ⟨h1, fun i hi => hi.elim (fun he => he ▸ h2) (h3 i)⟩
    · rintro ⟨h1, h2⟩
      exact ⟨⟨h1, h2 a (Or.inl rfl)⟩, fun i hi => h2 i (Or.inr hi)⟩

lemma getD_eq_getD_of_eq (a b : List Nat) (hlen : a.length = b.length)
    (h : ∀ i ∈ List.range (max a.length b.length), a.getD i 0 = b.getD i 0) :
    a = b := by
  apply List.ext_getElem hlen
  intro i h1 h2
  have hi : i ∈ List.range (max a.length b.length) := by
    simp only [List.mem_range]
    exact lt_max_of_lt_left h1
  have := h i hi
  rwa [List.getD_eq_getElem _ _ h1, List.getD_eq_getElem _ _ h2] at this

/-!
## C2 — ApiKey equality

The claim states that `Equals(a, b)` is equality of the two byte sequences
after zero-padding both to the common length.  The code additionally folds a
length-mismatch flag into the accumulator, so two keys that agree after
zero-padding but have different lengths (one ends in a literal NUL byte)
compare unequal.  The code's relation is plain byte-sequence equality.
-/

/-- C2 (counterexample): with `a = []` and `b = [0]` the zero-padded byte
sequences (padded to length 1) are both `[0]`, so the claim says
`Equals(a,b) = true`; the code returns `false` because the length-difference
flag seeds the accumulator with 1. -/
theorem apiKeyEq_padding_counterexample :
    apiKeyEq [] [0] = false ∧
    ([] : List Nat) ++ List.replicate (max (List.length ([] : List Nat)) (List.length [0]) - 0) 0 = [0] ∧
    [0] ++ List.replicate (max (List.length ([] : List Nat)) (List.length [0]) - 1) 0 = [0] := by
  refine ⟨by decide, by decide, by decide⟩

/-- C2 (amended): `Equals(a, b)` returns `true` exactly when the two byte
sequences are equal — same length and identical bytes; the zero-padded
comparison together with the length flag decides exactly this. -/
theorem apiKeyEq_iff_eq (a b : ApiKeyBytes) : apiKeyEq a b = true ↔ a = b := by
  unfold apiKeyEq
  simp only [beq_iff_eq]
  rw [foldl_lor_eq_zero]
  constructor
  · rintro ⟨hinit, hbytes⟩
    have hlen : a.length = b.length := by
      by_contra hne
      simp only [if_neg hne] at hinit
      exact one_ne_zero hinit
    refine getD_eq_getD_of_eq a b hlen ?_
    intro i hi
    have := hbytes i hi
    exact Nat.xor_eq_zero.mp this
  · rintro rfl
    refine ⟨by simp, ?_⟩
    intro i _
    exact Nat.xor_self _

/-!
## C10 — the pipeline's month computation never panics
-/

/-- C10: for every Unix-seconds value, the month computed by
`current_year_month` — `((days % 365) / 30 + 1).min(12)` — lies in `1..=12`,
so `YearMonth::new`'s assertion never fires and the function is total. -/
theorem current_year_month_total (secs : Nat) :
    (current_year_month secs).isSome = true := by
  unfold current_year_month YearMonth.new?
  have h1 : 1 ≤ min ((secs / 86400 % 365) / 30 + 1) 12 :=
    le_min (Nat.succ_le_succ (Nat.zero_le _)) (by norm_num)
  have h2 : min ((secs / 86400 % 365) / 30 + 1) 12 ≤ 12 := min_le_right _ _
  simp [h1, h2]

/-! ## core_domain/health.rs -/

/-- `BackendStatus` from health.rs. -/
inductive BackendStatus where
  | Healthy
  | Degraded
  | Unhealthy
  | Unknown
deriving DecidableEq, Repr

/-- `BackendState` from health.rs; `u32` counters as `Nat`, saturation made
explicit where the source saturates. -/
structure BackendState where
  id : String
  models : List String
  status : BackendStatus
  active_requests : Nat
  max_concurrent : Nat
  last_latency : Option Nat
  consecutive_failures : Nat
deriving DecidableEq, Repr

/-- `u32::MAX`, the saturation bound of the source's counters. -/
def u32Max : Nat := 4294967295

def BackendState.is_healthy (s : BackendState) : Bool :=
  match s.status with
  | .Healthy => true
  | .Degraded => true
  | _ => false

def BackendState.has_capacity (s : BackendState) : Bool :=
  s.active_requests < s.max_concurrent

def BackendState.serves_model (s : BackendState) (model : String) : Bool :=
  s.models.any (fun m => m == model)

def BackendState.with_healthy (s : BackendState) (latency : Nat) : BackendState :=
  { s with status := .Healthy, last_latency := some latency, consecutive_failures := 0 }

def BackendState.with_degraded (s : BackendState) (latency : Nat) : BackendState :=
  { s with status := .Degraded, last_latency := some latency }

def BackendState.with_unhealthy (s : BackendState) : BackendState :=
  { s with status := .Unhealthy }

/-- `with_failure` uses `saturating_add(1)`. -/
def BackendState.with_failure (s : BackendState) : BackendState :=
  { s with consecutive_failures := min (s.consecutive_failures + 1) u32Max }

/-! ## mb-server/src/health.rs — per-probe state update

The body of the probe loop in `HealthCheckManager::start_background_checks`
updates the stored state for one backend from one probe outcome; the outcome
is `some latency` on success and `none` on failure. -/

def update_on_probe (state : BackendState) (result : Option Nat)
    (degraded_latency_ms unhealthy_threshold : Nat) : BackendState :=
  match result with
  | some latency =>
    if degraded_latency_ms ≤ latency then state.with_degraded latency
    else state.with_healthy latency
  | none =>
    let s := state.with_failure
    if unhealthy_threshold ≤ s.consecutive_failures then s.with_unhealthy else s

/-!
## C9 — health manager per-probe transition
-/

/-- C9: on a successful probe with latency below the degraded threshold the
state becomes Healthy with that latency and zero consecutive failures; at or
above the threshold it becomes Degraded with that latency and the failure
counter untouched; on a failed probe the counter is incremented by one (short
of the `u32` saturation point) and the status becomes Unhealthy exactly when
the incremented count reaches `unhealthy_threshold`, otherwise it is
unchanged. -/
theorem update_on_probe_spec (s : BackendState) (dl th : Nat) :
    (∀ l, l < dl → update_on_probe s (some l) dl th =
      { s with status := .Healthy, last_latency := some l, consecutive_failures := 0 }) ∧
    (∀ l, dl ≤ l → update_on_probe s (some l) dl th =
      { s with status := .Degraded, last_latency := some l }) ∧
    (s.consecutive_failures < u32Max →
      (update_on_probe s none dl th).consecutive_failures = s.consecutive_failures + 1 ∧
      (update_on_probe s none dl th).status =
        (if th ≤ s.consecutive_failures + 1 then .Unhealthy else s.status)) := by
  refine ⟨?_, ?_, ?_⟩
  · intro l hl
    simp [update_on_probe, BackendState.with_healthy, Nat.not_le.mpr hl]
  · intro l hl
    simp [update_on_probe, BackendState.with_degraded, hl]
  · intro hs
    have hmin : min (s.consecutive_failures + 1) u32Max = s.consecutive_failures + 1 :=
      min_eq_left (Nat.succ_le_of_lt hs)
    constructor
    · simp only [update_on_probe, BackendState.with_failure, BackendState.with_unhealthy, hmin]
      split <;> rfl
    · simp only [update_on_probe, BackendState.with_failure, BackendState.with_unhealthy, hmin]
      split <;> simp_all

/-- A concrete backend state used to witness C9. -/
def witnessBackend : BackendState :=
  { id := "gpu-0", models := ["llama3-70b"], status := .Unknown,
    active_requests := 0, max_concurrent := 4, last_latency := none,
    consecutive_failures := 1 }

/-- C9 witness: the three probe transitions evaluated at a concrete state
with one prior failure, degraded threshold 100 and unhealthy threshold 2. -/
theorem update_on_probe_spec_witness :
    update_on_probe witnessBackend (some 50) 100 2 =
      { witnessBackend with
          status := .Healthy, last_latency := some 50, consecutive_failures := 0 } ∧
    update_on_probe witnessBackend (some 150) 100 2 =
      { witnessBackend with status := .Degraded, last_latency := some 150 } ∧
    (update_on_probe witnessBackend none 100 2).consecutive_failures = 2 ∧
    (update_on_probe witnessBackend none 100 2).status = .Unhealthy := by
  obtain ⟨h1, h2, h3⟩ := update_on_probe_spec witnessBackend 100 2
  obtain ⟨h4, h5⟩ := h3 (by decide)
  refine ⟨h1 50 (by decide), h2 150 (by decide), h4, ?_⟩
  rw [h5]
  decide

/-! ## core_domain/router.rs -/

inductive RoutingStrategy where
  | LeastLoaded
  | RoundRobin
deriving DecidableEq, Repr

inductive RoutingError where
  | ModelNotFound (model : String)
  | NoHealthyBackend (model : String)
deriving DecidableEq, Repr

/-- `apply_strategy` from router.rs.  The source `expect`s a non-empty
candidate list, which the nonemptiness argument makes explicit; `min_by_key`
returns the first of equally-minimal elements, matched here by the strict
comparison in the fold. -/
def apply_strategy (candidates : List BackendState) (strategy : RoutingStrategy)
    (round : Nat) (h : candidates ≠ []) : BackendState :=
  match candidates, h with
  | c :: cs, _ =>
    match strategy with
    | .LeastLoaded =>
      cs.foldl (fun acc b => if b.active_requests < acc.active_requests then b else acc) c
    | .RoundRobin =>
      (c :: cs).get ⟨round % (cs.length + 1), Nat.mod_lt _ (Nat.succ_pos _)⟩

/-- Step 3 of `select_backend`: the affinity hint is honoured when it names
a backend in the healthy list that has capacity. -/
def affinity_choice (healthy : List BackendState) (affinity_hint : Option String) :
    Option String :=
  match affinity_hint with
  | none => none
  | some hint =>
    match healthy.find? (fun b => b.id == hint) with
    | none => none
    | some b => if b.has_capacity then some b.id else none

/-- `select_backend` from router.rs: filter to backends serving the model,
then to healthy ones; honour the affinity hint when it names a healthy
backend with capacity; otherwise apply the strategy to the backends with
capacity, falling back to all healthy ones when none has capacity. -/
def select_backend (backends : List BackendState) (model : String)
    (strategy : RoutingStrategy) (round : Nat) (affinity_hint : Option String) :
    Except RoutingError String :=
  let serving := backends.filter (fun b => b.serves_model model)
  if serving.isEmpty then .error (.ModelNotFound model) else
  let healthy := serving.filter (fun b => b.is_healthy)
  if hh : healthy.isEmpty then .error (.NoHealthyBackend model) else
    match affinity_choice healthy affinity_hint with
    | some bid => .ok bid
    | none =>
      let with_capacity := healthy.filter (fun b => b.has_capacity)
      if hc : with_capacity.isEmpty then
        .ok (apply_strategy healthy strategy round
          (fun he => hh (by simp [he]))).id
      else
        .ok (apply_strategy with_capacity strategy round
          (fun he => hc (by simp [he]))).id

/-! ## Membership lemmas for strategy application -/

/-- A fold that at each step keeps either the accumulator or the new element
produces a member of the seeded list. -/
lemma foldl_choice_mem {α : Type} (p : α → α → Prop) [DecidableRel p] :
    ∀ (cs : List α) (c : α),
      cs.foldl (fun acc b => if p b acc then b else acc) c ∈ c :: cs := by
  intro cs
  induction cs with
  | nil => intro c; simp
  | cons b bs ih =>
    intro c
    simp only [List.foldl_cons]
    by_cases hp : p b c
    · rw [if_pos hp]
      exact List.mem_cons_of_mem _ (ih b)
    · rw [if_neg hp]
      rcases List.mem_cons.mp (ih c) with h | h
      · rw [h]; exact List.mem_cons_self _ _
      · exact List.mem_cons_of_mem _ (List.mem_cons_of_mem _ h)

lemma apply_strategy_mem (candidates : List BackendState) (strategy : RoutingStrategy)
    (round : Nat) (h : candidates ≠ []) :
    apply_strategy candidates strategy round h ∈ candidates := by
  match candidates, h with
  | c :: cs, _ =>
    cases strategy with
    | LeastLoaded =>
      exact foldl_choice_mem (fun b acc => b.active_requests < acc.active_requests) cs c
    | RoundRobin =>
      exact List.get_mem _ _ _

lemma affinity_choice_some (healthy : List BackendState) (hint : Option String)
    (bid : String) (h : affinity_choice healthy hint = some bid) :
    ∃ b ∈ healthy, b.id = bid ∧ b.has_capacity = true := by
  cases hint with
  | none => simp [affinity_choice] at h
  | some hid =>
    simp only [affinity_choice] at h
    rcases hfind : healthy.find? (fun b => b.id == hid) with _ | b
    · simp [hfind] at h
    · simp only [hfind] at h
      by_cases hcap : b.has_capacity = true
      · rw [if_pos hcap] at h
        exact ⟨b, List.mem_of_find?_eq_some hfind, Option.some_injective _ h, hcap⟩
      · rw [if_neg hcap] at h
        exact absurd h (by simp)

lemma mem_serving_healthy (backends : List BackendState) (model : String)
    (b : BackendState) :
    b ∈ (backends.filter (fun x => x.serves_model model)).filter
        (fun x => x.is_healthy) ↔
      b ∈ backends ∧ b.serves_model model = true ∧ b.is_healthy = true := by
  constructor
  · intro hmem
    rcases List.mem_filter.mp hmem with ⟨h1, hh⟩
    rcases List.mem_filter.mp h1 with ⟨h2, hs⟩
    exact ⟨h2, hs, hh⟩
  · rintro ⟨h1, h2, h3⟩
    exact List.mem_filter.mpr ⟨List.mem_filter.mpr ⟨h1, h2⟩, h3⟩

/-!
## C1 — the router always serves when a healthy backend exists
-/

/-- C1: when some backend serves the model, is Healthy or Degraded, and has
spare capacity, `select_backend` returns `Ok` with such a backend's id; when
no serving healthy backend has capacity but at least one serving backend is
Healthy or Degraded, it still returns `Ok` with a serving healthy backend's
id (the overload fallback is total). -/
theorem select_backend_spec (backends : List BackendState) (model : String)
    (strategy : RoutingStrategy) (round : Nat) (hint : Option String) :
    ((∃ b ∈ backends, b.serves_model model = true ∧ b.is_healthy = true ∧
        b.has_capacity = true) →
      ∃ bid, select_backend backends model strategy round hint = .ok bid ∧
        ∃ b ∈ backends, b.id = bid ∧ b.serves_model model = true ∧
          b.is_healthy = true ∧ b.has_capacity = true) ∧
    ((∀ b ∈ backends, b.serves_model model = true → b.is_healthy = true →
        b.has_capacity = false) →
      (∃ b ∈ backends, b.serves_model model = true ∧ b.is_healthy = true) →
      ∃ bid, select_backend backends model strategy round hint = .ok bid ∧
        ∃ b ∈ backends, b.id = bid ∧ b.serves_model model = true ∧
          b.is_healthy = true) := by
  constructor
  · rintro ⟨b0, hb0, hs0, hh0, hc0⟩
    have hserv : b0 ∈ backends.filter (fun x => x.serves_model model) :=
      List.mem_filter.mpr ⟨hb0, hs0⟩
    have hheal : b0 ∈ (backends.filter (fun x => x.serves_model model)).filter
        (fun x => x.is_healthy) := List.mem_filter.mpr ⟨hserv, hh0⟩
    have hsne : (backends.filter (fun x => x.serves_model model)).isEmpty = false := by
      rw [List.isEmpty_eq_false]
      exact List.ne_nil_of_mem hserv
    have hhne : ((backends.filter (fun x => x.serves_model model)).filter
        (fun x => x.is_healthy)).isEmpty = false := by
      rw [List.isEmpty_eq_false]
      exact List.ne_nil_of_mem hheal
    simp only [select_backend, hsne, Bool.false_eq_true, if_false, hhne, dite_false]
    rcases haff : affinity_choice ((backends.filter (fun x => x.serves_model model)).filter
        (fun x => x.is_healthy)) hint with _ | bid <;> simp only [haff]
    · have hcapmem : b0 ∈ ((backends.filter (fun x => x.serves_model model)).filter
          (fun x => x.is_healthy)).filter (fun x => x.has_capacity) :=
        List.mem_filter.mpr ⟨hheal, hc0⟩
      have hcne : (((backends.filter (fun x => x.serves_model model)).filter
          (fun x => x.is_healthy)).filter (fun x => x.has_capacity)).isEmpty = false := by
        rw [List.isEmpty_eq_false]
        exact List.ne_nil_of_mem hcapmem
      simp only [hcne, Bool.false_eq_true, dite_false]
      refine ⟨_, rfl, ?_⟩
      have hmem := apply_strategy_mem (((backends.filter (fun x => x.serves_model model)).filter
          (fun x => x.is_healthy)).filter (fun x => x.has_capacity)) strategy round
          (by rw [← List.isEmpty_eq_false]; exact hcne)
      rcases List.mem_filter.mp hmem with ⟨hmem2, hcap⟩
      rcases (mem_serving_healthy backends model _).mp hmem2 with ⟨hmem3, hs, hh⟩
      exact ⟨_, hmem3, rfl, hs, hh, hcap⟩
    · refine ⟨bid, rfl, ?_⟩
      rcases affinity_choice_some _ _ _ haff with ⟨b, hbmem, hbid, hbcap⟩
      rcases (mem_serving_healthy backends model b).mp hbmem with ⟨hmem3, hs, hh⟩
      exact ⟨b, hmem3, hbid, hs, hh, hbcap⟩
  · rintro hno ⟨b0, hb0, hs0, hh0⟩
    have hserv : b0 ∈ backends.filter (fun x => x.serves_model model) :=
      List.mem_filter.mpr ⟨hb0, hs0⟩
    have hheal : b0 ∈ (backends.filter (fun x => x.serves_model model)).filter
        (fun x => x.is_healthy) := List.mem_filter.mpr ⟨hserv, hh0⟩
    have hsne : (backends.filter (fun x => x.serves_model model)).isEmpty = false := by
      rw [List.isEmpty_eq_false]
      exact List.ne_nil_of_mem hserv
    have hhne : ((backends.filter (fun x => x.serves_model model)).filter
        (fun x => x.is_healthy)).isEmpty = false := by
      rw [List.isEmpty_eq_false]
      exact List.ne_nil_of_mem hheal
    simp only [select_backend, hsne, Bool.false_eq_true, if_false, hhne, dite_false]
    have haffnone : affinity_choice ((backends.filter (fun x => x.serves_model model)).filter
        (fun x => x.is_healthy)) hint = none := by
      rcases haff : affinity_choice ((backends.filter (fun x => x.serves_model model)).filter
          (fun x => x.is_healthy)) hint with _ | bid
      · exact haff
      · rcases affinity_choice_some _ _ _ haff with ⟨b, hbmem, _, hbcap⟩
        rcases (mem_serving_healthy backends model b).mp hbmem with ⟨hmem3, hs, hh⟩
        rw [hno b hmem3 hs hh] at hbcap
        exact absurd hbcap (by simp)
    simp only [haffnone]
    have hcempty : (((backends.filter (fun x => x.serves_model model)).filter
        (fun x => x.is_healthy)).filter (fun x => x.has_capacity)).isEmpty = true := by
      rw [List.isEmpty_iff]
      rcases hlist : ((backends.filter (fun x => x.serves_model model)).filter
          (fun x => x.is_healthy)).filter (fun x => x.has_capacity) with _ | ⟨x, xs⟩
      · exact hlist
      · exfalso
        have hxm : x ∈ ((backends.filter (fun x => x.serves_model model)).filter
            (fun x => x.is_healthy)).filter (fun x => x.has_capacity) := by
          rw [hlist]; exact List.mem_cons_self _ _
        rcases List.mem_filter.mp hxm with ⟨hmem2, hcap⟩
        rcases (mem_serving_healthy backends model x).mp hmem2 with ⟨hmem3, hs, hh⟩
        rw [hno x hmem3 hs hh] at hcap
        exact absurd hcap (by simp)
    rw [dif_pos hcempty]
    refine ⟨_, rfl, ?_⟩
    have hmem := apply_strategy_mem ((backends.filter (fun x => x.serves_model model)).filter
        (fun x => x.is_healthy)) strategy round
        (by rw [← List.isEmpty_eq_false]; exact hhne)
    rcases (mem_serving_healthy backends model _).mp hmem with ⟨hmem3, hs, hh⟩
    exact ⟨_, hmem3, rfl, hs, hh⟩

/-- Concrete snapshot with a healthy backend that has capacity. -/
def routerBackendsA : List BackendState :=
  [{ id := "gpu-0", models := ["llama3-70b"], status := .Healthy,
     active_requests := 1, max_concurrent := 4, last_latency := some 50,
     consecutive_failures := 0 }]

/-- Concrete snapshot where every healthy serving backend is at capacity. -/
def routerBackendsB : List BackendState :=
  [{ id := "gpu-1", models := ["llama3-70b"], status := .Degraded,
     active_requests := 4, max_concurrent := 4, last_latency := some 9000,
     consecutive_failures := 0 }]

/-- C1 witness: both router clauses instantiated at concrete snapshots, the
hypotheses discharged by evaluation. -/
theorem select_backend_spec_witness :
    (∃ b ∈ routerBackendsA, b.serves_model "llama3-70b" = true ∧
      b.is_healthy = true ∧ b.has_capacity = true) ∧
    (∃ bid, select_backend routerBackendsA "llama3-70b" .LeastLoaded 0 none = .ok bid ∧
      ∃ b ∈ routerBackendsA, b.id = bid ∧ b.serves_model "llama3-70b" = true ∧
        b.is_healthy = true ∧ b.has_capacity = true) ∧
    (∃ bid, select_backend routerBackendsB "llama3-70b" .RoundRobin 3 (some "gpu-1") = .ok bid ∧
      ∃ b ∈ routerBackendsB, b.id = bid ∧ b.serves_model "llama3-70b" = true ∧
        b.is_healthy = true) :=
  ⟨by decide,
   (select_backend_spec routerBackendsA "llama3-70b" .LeastLoaded 0 none).1 (by decide),
   (select_backend_spec routerBackendsB "llama3-70b" .RoundRobin 3 (some "gpu-1")).2
     (by decide) (by decide)⟩

/-! ## core_domain/quota.rs -/

/-- `RateLimitInfo` from error.rs. -/
structure RateLimitInfo where
  retry_after_ms : Nat
deriving DecidableEq, Repr

/-- `QuotaInfo` from error.rs. -/
structure QuotaInfo where
  limit : Nat
  used : Nat
deriving DecidableEq, Repr

structure QuotaConfig where
  monthly_token_limit : Option Nat
deriving DecidableEq, Repr

/-- `MonthlyUsage` from quota.rs. -/
structure MonthlyUsage where
  period : YearMonth
  tokens_used : Nat
deriving DecidableEq, Repr

/-- `QuotaTracker` from quota.rs; the `HashMap<ClientId, MonthlyUsage>` is an
association list keyed by the client string. -/
structure QuotaTracker where
  usage : List (String × MonthlyUsage)
deriving DecidableEq, Repr

/-- `HashMap::get` on the usage map. -/
def QuotaTracker.getUsage (t : QuotaTracker) (client : String) : Option MonthlyUsage :=
  (t.usage.find? (fun e => e.1 == client)).map (fun e => e.2)

/-- The `used` value read by `QuotaTracker::check`: the stored `tokens_used`
when the stored period matches, 0 otherwise
(`.filter(|u| u.period == current_period).map_or(0, |u| u.tokens_used)`). -/
def QuotaTracker.usedFor (t : QuotaTracker) (client : String)
    (current_period : YearMonth) : Nat :=
  match t.getUsage client with
  | some u => if u.period = current_period then u.tokens_used else 0
  | none => 0

/-- `QuotaTracker::check` from quota.rs; `none` is `Ok(())`, `some` carries
the `QuotaInfo` of the error.  `check` takes the tracker by shared reference,
so the embedding returns no updated state: the tracker is unchanged. -/
def QuotaTracker.check (t : QuotaTracker) (client : String)
    (estimated_tokens : Nat) (config : QuotaConfig) (current_period : YearMonth) :
    Option QuotaInfo :=
  match config.monthly_token_limit with
  | none => none
  | some limit =>
    let used := t.usedFor client current_period
    if limit < used + estimated_tokens then some ⟨limit, used⟩ else none

/-!
## C4 — quota admission check
-/

/-- C4: `check` accepts exactly when no monthly limit is configured or when
`used + estimated ≤ limit`, where `used` is the stored count for the client
when its stored period equals the given one and 0 otherwise; in every other
case it rejects with exactly that limit and that used value.  (The tracker is
passed by shared reference, so `check` cannot change it; the embedding
returns only the verdict.) -/
theorem quota_check_spec (t : QuotaTracker) (client : String) (est : Nat)
    (config : QuotaConfig) (period : YearMonth) :
    (t.check client est config period = none ↔
      config.monthly_token_limit = none ∨
      ∃ limit, config.monthly_token_limit = some limit ∧
        t.usedFor client period + est ≤ limit) ∧
    (∀ limit, config.monthly_token_limit = some limit →
      limit < t.usedFor client period + est →
      t.check client est config period = some ⟨limit, t.usedFor client period⟩) := by
  constructor
  · rcases hcfg : config.monthly_token_limit with _ | limit
    · simp [QuotaTracker.check, hcfg]
    · simp only [QuotaTracker.check, hcfg]
      by_cases hlt : limit < t.usedFor client period + est
      · simp only [if_pos hlt]
        constructor
        · intro h; exact absurd h (by simp)
        · rintro (h | ⟨l2, hl2, hle⟩)
          · exact absurd h (by simp)
          · rw [Option.some_injective _ hl2] at hlt; omega
      · simp only [if_neg hlt]
        constructor
        · intro _
          exact Or.inr ⟨limit, rfl, by omega⟩
        · intro _; trivial
  · intro limit hcfg hlt
    simp [QuotaTracker.check, hcfg, if_pos hlt]

/-- Concrete tracker used to witness C4: 95 000 tokens recorded for
`team-alpha` in 2025-06 against a 100 000-token limit. -/
def witnessTracker : QuotaTracker :=
  ⟨[("team-alpha", ⟨⟨2025, 6⟩, 95000⟩)]⟩

/-- C4 witness: the rejection clause applied at a concrete over-budget
request, plus the acceptance clause evaluated concretely. -/
theorem quota_check_spec_witness :
    QuotaTracker.check witnessTracker "team-alpha" 10000 ⟨some 100000⟩ ⟨2025, 6⟩ =
      some ⟨100000, 95000⟩ ∧
    (QuotaTracker.check witnessTracker "team-alpha" 5000 ⟨some 100000⟩ ⟨2025, 6⟩ = none ↔
      (⟨some 100000⟩ : QuotaConfig).monthly_token_limit = none ∨
      ∃ limit, (⟨some 100000⟩ : QuotaConfig).monthly_token_limit = some limit ∧
        QuotaTracker.usedFor witnessTracker "team-alpha" ⟨2025, 6⟩ + 5000 ≤ limit) := by
  constructor
  · have h := (quota_check_spec witnessTracker "team-alpha" 10000 ⟨some 100000⟩ ⟨2025, 6⟩).2
      100000 rfl (by decide)
    rw [h]
    decide
  · exact (quota_check_spec witnessTracker "team-alpha" 5000 ⟨some 100000⟩ ⟨2025, 6⟩).1

/-! ## core_domain/quota.rs — sliding-window rate limiter -/

/-- `RateLimiter` from quota.rs; the `VecDeque` of timestamps is a list with
the front at the head. -/
structure RateLimiter where
  window_ms : Nat
  limit : Nat
  timestamps : List Nat
deriving DecidableEq, Repr

def RateLimiter.new (window_ms limit : Nat) : RateLimiter :=
  ⟨window_ms, limit, []⟩

/-- `RateLimiter::check` from quota.rs.  The front-pruning `while let` loop
is `dropWhile`; `now_ms.saturating_sub(window_ms)` and the saturating
subtraction in `retry_after_ms` are `Nat` subtraction.  The first component
is `none` on acceptance and carries the `RateLimitInfo` on rejection; the
second is the limiter after the call. -/
def RateLimiter.check (rl : RateLimiter) (now_ms : Nat) :
    Option RateLimitInfo × RateLimiter :=
  let pruned := rl.timestamps.dropWhile (fun t => t < now_ms - rl.window_ms)
  if rl.limit ≤ pruned.length then
    (some ⟨pruned.head?.getD now_ms + rl.window_ms - now_ms⟩,
     { rl with timestamps := pruned })
  else
    (none, { rl with timestamps := pruned ++ [now_ms] })

/-- State reached from a fresh limiter after a sequence of calls. -/
def RateLimiter.runCalls (rl : RateLimiter) (times : List Nat) : RateLimiter :=
  times.foldl (fun st t => (st.check t).2) rl

/-- The recorded timestamps lying in the closed window `[now − window, now]`
(the set the claim counts). -/
def RateLimiter.held_in_window (rl : RateLimiter) (now : Nat) : List Nat :=
  rl.timestamps.filter (fun x => now - rl.window_ms ≤ x ∧ x ≤ now)

/-! ### Sorted-queue lemmas for the rate limiter -/

lemma dropWhile_lt_eq_filter (ws : Nat) :
    ∀ (l : List Nat), l.Pairwise (· ≤ ·) →
      l.dropWhile (fun t => t < ws) = l.filter (fun t => ws ≤ t) := by
  intro l
  induction l with
  | nil => intro _; rfl
  | cons x t ih =>
    intro hp
    rcases List.pairwise_cons.mp hp with ⟨hx, ht⟩
    by_cases hxw : x < ws
    · rw [List.dropWhile_cons_of_pos (by simpa using hxw),
        List.filter_cons_of_neg (by simp; omega)]
      exact ih ht
    · rw [List.dropWhile_cons_of_neg (by simpa using hxw),
        List.filter_cons_of_pos (by simp; omega)]
      have : t.filter (fun t => ws ≤ t) = t := by
        rw [List.filter_eq_self]
        intro a ha
        have := hx a ha
        simp only [decide_eq_true_eq]
        omega
      rw [this]

/-- On a sorted queue of past timestamps, the pruning pass of `check` keeps
exactly the timestamps inside the closed window. -/
lemma pruned_eq_held (rl : RateLimiter) (now : Nat)
    (hp : rl.timestamps.Pairwise (· ≤ ·)) (hb : ∀ x ∈ rl.timestamps, x ≤ now) :
    rl.timestamps.dropWhile (fun t => t < now - rl.window_ms) =
      rl.held_in_window now := by
  rw [dropWhile_lt_eq_filter (now - rl.window_ms) rl.timestamps hp]
  unfold RateLimiter.held_in_window
  apply List.filter_congr
  intro a ha
  rw [decide_eq_decide]
  exact ⟨fun h => ⟨h, hb a ha⟩, fun h => h.1⟩

/-- One `check` call on a well-formed limiter state: rejection happens
exactly when the window already holds `limit` timestamps; rejection keeps
the pruned queue and reports `earliest + window − now`; acceptance appends
`now` to the pruned queue. -/
lemma check_spec_core (rl : RateLimiter) (now : Nat)
    (hp : rl.timestamps.Pairwise (· ≤ ·)) (hb : ∀ x ∈ rl.timestamps, x ≤ now) :
    ((rl.check now).1 = none ↔ (rl.held_in_window now).length < rl.limit) ∧
    ((rl.check now).1 = none →
      (rl.check now).2.timestamps = rl.held_in_window now ++ [now]) ∧
    (∀ info, (rl.check now).1 = some info →
      (rl.check now).2.timestamps = rl.held_in_window now ∧
      ∀ e es, rl.held_in_window now = e :: es →
        info.retry_after_ms = e + rl.window_ms - now) := by
  have hpr := pruned_eq_held rl now hp hb
  by_cases hlim : rl.limit ≤ (rl.held_in_window now).length
  · simp only [RateLimiter.check, hpr, if_pos hlim]
    refine ⟨by simp; omega, by simp, ?_⟩
    intro info hinfo
    refine ⟨by trivial, ?_⟩
    intro e es hees
    have : info = ⟨(rl.held_in_window now).head?.getD now + rl.window_ms - now⟩ :=
      (Option.some_injective _ hinfo).symm
    rw [this, hees]
    rfl
  · simp only [RateLimiter.check, hpr, if_neg hlim]
    exact ⟨by simp; omega, fun _ => by trivial, fun info hinfo => absurd hinfo (by simp)⟩

lemma check_snd_fields (rl : RateLimiter) (now : Nat) :
    (rl.check now).2.window_ms = rl.window_ms ∧ (rl.check now).2.limit = rl.limit := by
  simp only [RateLimiter.check]
  split <;> exact ⟨rfl, rfl⟩

lemma check_snd_mem (rl : RateLimiter) (now x : Nat)
    (h : x ∈ (rl.check now).2.timestamps) : x ∈ rl.timestamps ∨ x = now := by
  simp only [RateLimiter.check] at h
  split at h
  · exact Or.inl (List.dropWhile_sublist _ |>.subset h)
  · simp only [List.mem_append, List.mem_singleton] at h
    rcases h with h | h
    · exact Or.inl (List.dropWhile_sublist _ |>.subset h)
    · exact Or.inr h

lemma check_snd_pairwise (rl : RateLimiter) (now : Nat)
    (hp : rl.timestamps.Pairwise (· ≤ ·)) (hb : ∀ x ∈ rl.timestamps, x ≤ now) :
    (rl.check now).2.timestamps.Pairwise (· ≤ ·) := by
  have hsub : List.Sublist (rl.timestamps.dropWhile (fun t => t < now - rl.window_ms))
      rl.timestamps := List.dropWhile_sublist _
  have hpp : (rl.timestamps.dropWhile (fun t => t < now - rl.window_ms)).Pairwise (· ≤ ·) :=
    hp.sublist hsub
  simp only [RateLimiter.check]
  split
  · exact hpp
  · rw [List.pairwise_append]
    refine ⟨hpp, List.pairwise_singleton _ _, ?_⟩
    intro a ha y hy
    rw [List.mem_singleton] at hy
    subst hy
    exact hb a (hsub.subset ha)

/-- Running a non-decreasing call sequence from a well-prefixed state keeps
the queue sorted, bounded by the next call time, and the configuration
fields fixed. -/
lemma runCalls_inv :
    ∀ (times : List Nat) (t : Nat) (rl : RateLimiter),
      (times ++ [t]).Pairwise (· ≤ ·) →
      rl.timestamps.Pairwise (· ≤ ·) →
      (∀ x ∈ rl.timestamps, ∀ y ∈ times ++ [t], x ≤ y) →
      (rl.runCalls times).timestamps.Pairwise (· ≤ ·) ∧
      (∀ x ∈ (rl.runCalls times).timestamps, x ≤ t) ∧
      (rl.runCalls times).window_ms = rl.window_ms ∧
      (rl.runCalls times).limit = rl.limit := by
  intro times
  induction times with
  | nil =>
    intro t rl _ hp hbnd
    refine ⟨hp, ?_, rfl, rfl⟩
    intro x hx
    exact hbnd x hx t (by simp)
  | cons s rest ih =>
    intro t rl hmono hp hbnd
    have hs_le : ∀ y ∈ rest ++ [t], s ≤ y := by
      intro y hy
      exact (List.pairwise_cons.mp hmono).1 y hy
    have hb_s : ∀ x ∈ rl.timestamps, x ≤ s := by
      intro x hx
      exact hbnd x hx s (by simp)
    have hnext : ∀ x ∈ (rl.check s).2.timestamps, ∀ y ∈ rest ++ [t], x ≤ y := by
      intro x hx y hy
      rcases check_snd_mem rl s x hx with hold | rfl
      · exact hbnd x hold y (List.mem_cons_of_mem _ hy)
      · exact hs_le y hy
    have hstep := ih t ((rl.check s).2) (List.pairwise_cons.mp hmono).2
      (check_snd_pairwise rl s hp hb_s) hnext
    have hfields := check_snd_fields rl s
    refine ⟨hstep.1, hstep.2.1, ?_, ?_⟩
    · rw [show rl.runCalls (s :: rest) = ((rl.check s).2).runCalls rest from rfl,
        hstep.2.2.1, hfields.1]
    · rw [show rl.runCalls (s :: rest) = ((rl.check s).2).runCalls rest from rfl,
        hstep.2.2.2, hfields.2]

/-!
## C3 — sliding-window rate limiter
-/

/-- C3: starting from a fresh limiter and any non-decreasing call sequence
ending at time `t`, the check at `t` rejects exactly when the limiter holds
at least `limit` timestamps in `[t − window, t]`; on rejection it reports
`earliest surviving + window − t` and records nothing (the queue is just the
pruned survivors); on acceptance it records `t` after the survivors. -/
theorem rate_limiter_check_spec (window limit : Nat) (times : List Nat) (t : Nat)
    (hmono : (times ++ [t]).Pairwise (· ≤ ·)) :
    ((((RateLimiter.new window limit).runCalls times).check t).1 = none ↔
      (((RateLimiter.new window limit).runCalls times).held_in_window t).length < limit) ∧
    ((((RateLimiter.new window limit).runCalls times).check t).1 = none →
      ((((RateLimiter.new window limit).runCalls times).check t).2).timestamps =
        ((RateLimiter.new window limit).runCalls times).held_in_window t ++ [t]) ∧
    (∀ info, (((RateLimiter.new window limit).runCalls times).check t).1 = some info →
      ((((RateLimiter.new window limit).runCalls times).check t).2).timestamps =
        ((RateLimiter.new window limit).runCalls times).held_in_window t ∧
      ∀ e es, ((RateLimiter.new window limit).runCalls times).held_in_window t = e :: es →
        info.retry_after_ms = e + window - t) := by
  have hinv := runCalls_inv times t (RateLimiter.new window limit) hmono
    (by exact List.Pairwise.nil) (by intro x hx; exact absurd hx (by simp [RateLimiter.new]))
  have hcore := check_spec_core ((RateLimiter.new window limit).runCalls times) t
    hinv.1 hinv.2.1
  have hw : ((RateLimiter.new window limit).runCalls times).window_ms = window := hinv.2.2.1
  have hl : ((RateLimiter.new window limit).runCalls times).limit = limit := hinv.2.2.2
  rw [hw, hl] at hcore
  exact hcore

/-- C3 witness: window 10 ms, limit 1, one prior call at 5 ms; the check at
6 ms rejects with `retry_after_ms = 5 + 10 − 6 = 9` and keeps the queue. -/
theorem rate_limiter_check_spec_witness :
    ¬ ((((RateLimiter.new 10 1).runCalls [5]).check 6).1 = none) ∧
    (((RateLimiter.new 10 1).runCalls [5]).check 6).1 = some ⟨9⟩ := by
  have h := rate_limiter_check_spec 10 1 [5] 6 (by decide)
  refine ⟨?_, by decide⟩
  intro hnone
  have := h.1.mp hnone
  revert this
  decide

/-! ## core_domain/cache_router.rs — bounded LRU affinity map -/

/-- `AffinityEntry` from cache_router.rs. -/
structure AffinityEntry where
  backend : String
  last_used : Nat
  hit_count : Nat
deriving DecidableEq, Repr

/-- The map key `(ModelId, PrefixHash)`. -/
abbrev AffKey := String × Nat

/-- `CacheAffinityMap` from cache_router.rs; the `HashMap` is an association
list (the source's iteration order is arbitrary, the list order here). -/
structure CacheAffinityMap where
  entries : List (AffKey × AffinityEntry)
  max_entries : Nat
  counter : Nat
deriving DecidableEq, Repr

def CacheAffinityMap.empty (max_entries : Nat) : CacheAffinityMap :=
  ⟨[], max_entries, 0⟩

/-- In-place update of the first entry with the given key
(`HashMap::get_mut` / `Entry::and_modify`). -/
def updateAssoc (key : AffKey) (f : AffinityEntry → AffinityEntry) :
    List (AffKey × AffinityEntry) → List (AffKey × AffinityEntry)
  | [] => []
  | e :: es => if e.1 = key then (e.1, f e.2) :: es else e :: updateAssoc key f es

/-- `CacheAffinityMap::get`: on a hit, bump the counter, refresh `last_used`
and `hit_count`, and return the entry's backend. -/
def CacheAffinityMap.get (m : CacheAffinityMap) (model : String) (pfx : Nat) :
    Option String × CacheAffinityMap :=
  let key : AffKey := (model, pfx)
  match m.entries.find? (fun e => e.1 == key) with
  | some e =>
    (some e.2.backend,
     { m with
         counter := m.counter + 1,
         entries := updateAssoc key
           (fun en => { en with last_used := m.counter + 1, hit_count := en.hit_count + 1 })
           m.entries })
  | none => (none, m)

/-- `CacheAffinityMap::evict_lru`: remove the entry whose `last_used` is
smallest (first of equal minima, as `min_by_key` returns the first). -/
def CacheAffinityMap.evict_lru (m : CacheAffinityMap) : CacheAffinityMap :=
  match m.entries with
  | [] => m
  | e :: es =>
    let oldest := es.foldl (fun acc x => if x.2.last_used < acc.2.last_used then x else acc) e
    { m with entries := m.entries.eraseP (fun x => x.1 == oldest.1) }

/-- `CacheAffinityMap::record`: bump the counter, insert or refresh the
entry, then evict the least-recently-used entry if the size bound is
exceeded. -/
def CacheAffinityMap.record (m : CacheAffinityMap) (model : String) (pfx : Nat)
    (backend : String) : CacheAffinityMap :=
  let key : AffKey := (model, pfx)
  let counter := m.counter + 1
  let entries :=
    if m.entries.any (fun e => e.1 == key) then
      updateAssoc key
        (fun en => { en with backend := backend, last_used := counter,
                             hit_count := en.hit_count + 1 })
        m.entries
    else
      m.entries ++ [(key, ⟨backend, counter, 1⟩)]
  let m2 : CacheAffinityMap := { m with counter := counter, entries := entries }
  if m2.max_entries < m2.entries.length then m2.evict_lru else m2

/-- `CacheAffinityMap::evict_backend`: drop every entry mapping to the
backend. -/
def CacheAffinityMap.evict_backend (m : CacheAffinityMap) (backend : String) :
    CacheAffinityMap :=
  { m with entries := m.entries.filter (fun e => e.2.backend ≠ backend) }

/-- One operation of the affinity-map interface used by the pipeline. -/
inductive AffOp where
  | get (model : String) (pfx : Nat)
  | record (model : String) (pfx : Nat) (backend : String)
  | evictBackend (backend : String)
deriving DecidableEq, Repr

def AffOp.apply (m : CacheAffinityMap) : AffOp → CacheAffinityMap
  | .get model pfx => (m.get model pfx).2
  | .record model pfx backend => m.record model pfx backend
  | .evictBackend b => m.evict_backend b

def CacheAffinityMap.runOps (m : CacheAffinityMap) (ops : List AffOp) : CacheAffinityMap :=
  ops.foldl AffOp.apply m

/-! ### Size lemmas for the affinity map -/

lemma updateAssoc_length (key : AffKey) (f : AffinityEntry → AffinityEntry) :
    ∀ l : List (AffKey × AffinityEntry), (updateAssoc key f l).length = l.length := by
  intro l
  induction l with
  | nil => rfl
  | cons e es ih =>
    by_cases he : e.1 = key
    · simp [updateAssoc, he]
    · simp [updateAssoc, he, ih]

lemma length_eraseP_of_mem {α : Type} (p : α → Bool) :
    ∀ (l : List α) (x : α), x ∈ l → p x = true →
      (l.eraseP p).length + 1 = l.length := by
  intro l
  induction l with
  | nil => intro x hx; exact absurd hx (by simp)
  | cons a t ih =>
    intro x hx hpx
    by_cases hpa : p a = true
    · rw [List.eraseP_cons_of_pos hpa]
      simp
    · rw [List.eraseP_cons_of_neg (by simpa using hpa)]
      rcases List.mem_cons.mp hx with rfl | hxt
      · exact absurd hpx hpa
      · simp only [List.length_cons]
        rw [← ih x hxt hpx]

lemma evict_lru_length (m : CacheAffinityMap) (h : m.entries ≠ []) :
    (m.evict_lru).entries.length + 1 = m.entries.length := by
  unfold CacheAffinityMap.evict_lru
  match hm : m.entries, h with
  | e :: es, _ =>
    simp only
    have hmem : (es.foldl (fun acc x => if x.2.last_used < acc.2.last_used then x else acc) e)
        ∈ e :: es :=
      foldl_choice_mem (fun x acc => x.2.last_used < acc.2.last_used) es e
    exact length_eraseP_of_mem _ (e :: es) _ hmem (by simp)

lemma evict_lru_fields (m : CacheAffinityMap) :
    (m.evict_lru).max_entries = m.max_entries := by
  unfold CacheAffinityMap.evict_lru
  match m.entries with
  | [] => rfl
  | e :: es => rfl

lemma affop_apply_max (m : CacheAffinityMap) (op : AffOp) :
    (op.apply m).max_entries = m.max_entries := by
  cases op with
  | get model pfx =>
    simp only [AffOp.apply, CacheAffinityMap.get]
    rcases hf : m.entries.find? (fun e => e.1 == (model, pfx)) with _ | e <;>
      simp [hf]
  | record model pfx backend =>
    simp only [AffOp.apply, CacheAffinityMap.record]
    split <;> split
    · rw [evict_lru_fields]
    · rfl
    · rw [evict_lru_fields]
    · rfl
  | evictBackend b => rfl

lemma affop_apply_length (m : CacheAffinityMap) (op : AffOp)
    (h : m.entries.length ≤ m.max_entries) :
    (op.apply m).entries.length ≤ m.max_entries := by
  cases op with
  | get model pfx =>
    simp only [AffOp.apply, CacheAffinityMap.get]
    rcases hf : m.entries.find? (fun e => e.1 == (model, pfx)) with _ | e
    · simpa [hf] using h
    · simpa [hf, updateAssoc_length] using h
  | record model pfx backend =>
    simp only [AffOp.apply, CacheAffinityMap.record]
    by_cases hk : m.entries.any (fun e => e.1 == (model, pfx)) = true
    · rw [if_pos hk]
      split
      next hgt =>
        rw [updateAssoc_length] at hgt
        omega
      next hle =>
        simpa [updateAssoc_length] using Nat.le_of_not_lt hle
    · rw [if_neg hk]
      split
      next hgt =>
        have hne : (m.entries ++ [((model, pfx), ⟨backend, m.counter + 1, 1⟩)]) ≠ [] := by
          simp
        have := evict_lru_length
          { m with counter := m.counter + 1,
                   entries := m.entries ++ [((model, pfx), ⟨backend, m.counter + 1, 1⟩)] }
          hne
        simp only at this
        simp only [List.length_append, List.length_singleton] at this ⊢
        omega
      next hle =>
        simp only [List.length_append, List.length_singleton] at hle ⊢
        omega
  | evictBackend b =>
    simp only [AffOp.apply, CacheAffinityMap.evict_backend]
    exact le_trans (List.length_filter_le _ _) h

/-!
## C6 — affinity-map size bound and backend eviction
-/

/-- C6: from an empty map with bound `max_entries`, any sequence of `Get`,
`Record` and `EvictBackend` operations leaves at most `max_entries` stored
entries, and immediately after an `EvictBackend b` no stored entry maps to
`b`. -/
theorem cache_affinity_map_invariant (max_entries : Nat) (ops : List AffOp) (b : String) :
    ((CacheAffinityMap.empty max_entries).runOps ops).entries.length ≤ max_entries ∧
    (((CacheAffinityMap.empty max_entries).runOps
        (ops ++ [AffOp.evictBackend b])).entries.all
      (fun e => e.2.backend ≠ b)) = true := by
  have hgen : ∀ (ops : List AffOp) (m : CacheAffinityMap),
      m.entries.length ≤ m.max_entries →
      (m.runOps ops).entries.length ≤ (m.runOps ops).max_entries ∧
      (m.runOps ops).max_entries = m.max_entries := by
    intro ops
    induction ops with
    | nil => intro m hm; exact ⟨hm, rfl⟩
    | cons op rest ih =>
      intro m hm
      have hstep : (op.apply m).entries.length ≤ (op.apply m).max_entries := by
        rw [affop_apply_max]
        exact affop_apply_length m op hm
      have := ih (op.apply m) hstep
      refine ⟨this.1, ?_⟩
      rw [show m.runOps (op :: rest) = (op.apply m).runOps rest from rfl,
        this.2, affop_apply_max]
  constructor
  · have := hgen ops (CacheAffinityMap.empty max_entries) (by simp [CacheAffinityMap.empty])
    rw [this.2] at this
    exact this.1
  · rw [show (CacheAffinityMap.empty max_entries).runOps (ops ++ [AffOp.evictBackend b]) =
      AffOp.apply ((CacheAffinityMap.empty max_entries).runOps ops) (AffOp.evictBackend b) from by
        unfold CacheAffinityMap.runOps
        rw [List.foldl_append]
        rfl]
    simp only [AffOp.apply, CacheAffinityMap.evict_backend]
    rw [List.all_eq_true]
    intro e he
    exact (List.mem_filter.mp he).2

/-! ## core_domain/canonical.rs — message types -/

inductive Role where
  | System
  | User
  | Assistant
  | Tool
deriving DecidableEq, Repr

inductive ImageDetail where
  | Auto
  | Low
  | High
deriving DecidableEq, Repr

inductive ContentPart where
  | Text (text : String)
  | ImageUrl (url : String) (detail : Option ImageDetail)
deriving DecidableEq, Repr

inductive MessageContent where
  | Text (s : String)
  | Parts (parts : List ContentPart)
deriving DecidableEq, Repr

structure Message where
  role : Role
  content : MessageContent
  name : Option String
  tool_call_id : Option String
deriving DecidableEq, Repr

/-! ## core_domain/cache_router.rs — prefix hash

`compute_prefix_hash` feeds text into a `DefaultHasher` (a fixed-key 64-bit
hash from the standard library, external to this repository) and returns
`finish()`.  The embedding makes the fed byte stream explicit — the ordered
list of strings hashed — and keeps the finishing hash abstract as a
parameter `h`, since every property claimed of the hash is a property of the
fed stream. -/

/-- `hash_message_content` from cache_router.rs: the strings it feeds to the
hasher — the whole text for a `Text` content, the text parts in order for a
`Parts` content, image parts skipped. -/
def hash_message_content : MessageContent → List String
  | .Text s => [s]
  | .Parts parts =>
    parts.filterMap fun p =>
      match p with
      | .Text t => some t
      | .ImageUrl _ _ => none

/-- The message loop of `compute_prefix_hash`: stop once `prefix_depth`
messages were hashed, skip roles other than System and User, and count only
hashed messages. -/
def compute_prefix_texts : List Message → Nat → Nat → List String
  | [], _, _ => []
  | msg :: rest, count, depth =>
    if depth ≤ count then []
    else if msg.role = .System ∨ msg.role = .User then
      hash_message_content msg.content ++ compute_prefix_texts rest (count + 1) depth
    else
      compute_prefix_texts rest count depth

/-- `compute_prefix_hash` from cache_router.rs, with the 64-bit hasher
abstracted into `h` applied to the fed stream. -/
def compute_prefix_hash (h : List String → Nat) (messages : List Message)
    (depth : Nat) : Nat :=
  h (compute_prefix_texts messages 0 depth)

/-- Insertion of an image-url part at a position of a message's part list
(`Vec::insert`); a plain-text message has no part list and is unchanged. -/
def insertImagePart (m : Message) (pos : Nat) (url : String)
    (detail : Option ImageDetail) : Message :=
  match m.content with
  | .Text s => { m with content := .Text s }
  | .Parts parts =>
    { m with content := .Parts (parts.insertIdx pos (.ImageUrl url detail)) }

/-! ### Stream lemmas for the prefix hash -/

lemma filterMap_insertIdx_none {α β : Type} (f : α → Option β) (x : α) (hx : f x = none) :
    ∀ (pos : Nat) (l : List α), (l.insertIdx pos x).filterMap f = l.filterMap f := by
  intro pos
  induction pos with
  | zero =>
    intro l
    rw [List.insertIdx_zero, List.filterMap_cons, hx]
  | succ n ih =>
    intro l
    cases l with
    | nil => rfl
    | cons a t =>
      rw [List.insertIdx_succ_cons, List.filterMap_cons, List.filterMap_cons, ih]

lemma hash_message_content_insert (m : Message) (pos : Nat) (url : String)
    (detail : Option ImageDetail) :
    hash_message_content (insertImagePart m pos url detail).content =
      hash_message_content m.content := by
  rcases m with ⟨role, content, name, tid⟩
  cases content with
  | Text s => rfl
  | Parts parts =>
    simp only [insertImagePart, hash_message_content]
    exact filterMap_insertIdx_none _ _ rfl pos parts

lemma insertImagePart_role (m : Message) (pos : Nat) (url : String)
    (detail : Option ImageDetail) :
    (insertImagePart m pos url detail).role = m.role := by
  rcases m with ⟨role, content, name, tid⟩
  cases content <;> rfl

lemma compute_prefix_texts_insert (post : List Message) (m : Message) (pos : Nat)
    (url : String) (detail : Option ImageDetail) :
    ∀ (pre : List Message) (count depth : Nat),
      compute_prefix_texts (pre ++ insertImagePart m pos url detail :: post) count depth =
        compute_prefix_texts (pre ++ m :: post) count depth := by
  intro pre
  induction pre with
  | nil =>
    intro count depth
    simp only [List.nil_append, compute_prefix_texts, insertImagePart_role,
      hash_message_content_insert]
  | cons p rest ih =>
    intro count depth
    simp only [List.cons_append, compute_prefix_texts, List.append_eq]
    by_cases hd : depth ≤ count
    · rw [if_pos hd, if_pos hd]
    · rw [if_neg hd, if_neg hd]
      by_cases hr : p.role = .System ∨ p.role = .User
      · rw [if_pos hr, if_pos hr, ih]
      · rw [if_neg hr, if_neg hr, ih]

/-!
## C7 — prefix hash ignores image parts
-/

/-- C7: for every finishing hash `h`, message list (split as
`pre ++ m :: post`), prefix depth, and insertion position, inserting an
image-url content part into the parts of any message leaves
`compute_prefix_hash` unchanged.  Determinism of the hash over its inputs is
inherent in the embedding: `compute_prefix_hash` is a pure function of the
message list and depth (the source's `DefaultHasher::new()` is fixed-key). -/
theorem compute_prefix_hash_image_invariant (h : List String → Nat)
    (pre post : List Message) (m : Message) (pos : Nat) (url : String)
    (detail : Option ImageDetail) (depth : Nat) :
    compute_prefix_hash h (pre ++ insertImagePart m pos url detail :: post) depth =
      compute_prefix_hash h (pre ++ m :: post) depth := by
  unfold compute_prefix_hash
  rw [compute_prefix_texts_insert post m pos url detail pre 0 depth]

/-! ## mb-server/src/outbound/streaming.rs — SSE line reassembly

Buffers are `List Char` (the source buffer is a `String` fed from UTF-8
chunks).  `take_next_data_line` is embedded as a single left-to-right scan:
the source's `buffer.find('\n')` / `drain(..=pos)` loop walks the buffer
once per consumed line, accumulating the current line's characters until the
newline; the scan makes that cursor explicit in `acc` (the current line read
so far, reversed).  `poll_next` run to completion over a chunk list is
`sse_run`: after each chunk, every extractable line is yielded; at EOF the
remaining extractable lines are drained and whatever is left in the buffer
is dropped. -/

/-- `trim_end_matches('\r')`. -/
def trim_cr (l : List Char) : List Char :=
  (l.reverse.dropWhile (fun c => c = '\r')).reverse

/-- `strip_prefix` on character lists. -/
def stripPrefixList : List Char → List Char → Option (List Char)
  | [], l => some l
  | _ :: _, [] => none
  | p :: ps, c :: cs => if p = c then stripPrefixList ps cs else none

/-- The `data: ` field marker. -/
def dataMarker : List Char := ['d', 'a', 't', 'a', ':', ' ']

/-- Classification of one complete line by `take_next_data_line`: strip the
`data: ` marker when present, otherwise pass the raw line through. -/
def classifyLine (line : List Char) : List Char :=
  match stripPrefixList dataMarker line with
  | some payload => payload
  | none => line

/-- The scanning loop of `take_next_data_line`: `acc` holds the current
line's characters in reverse.  At a newline the line (with trailing `'\r'`
trimmed) is either skipped (empty or SSE comment) — consuming it from the
buffer — or returned; at end of input nothing is returned and the buffer
(the unconsumed tail) is left as is. -/
def take_line_scan (acc : List Char) : List Char → Option (List Char) × List Char
  | [] => (none, acc.reverse)
  | c :: rest =>
    if c = '\n' then
      let line := trim_cr acc.reverse
      if line = [] ∨ line.head? = some ':' then take_line_scan [] rest
      else (some (classifyLine line), rest)
    else take_line_scan (c :: acc) rest

/-- `take_next_data_line` from streaming.rs: first component is the yielded
payload (if any complete non-skipped line exists), second is the buffer
afterwards. -/
def take_next_data_line (buffer : List Char) : Option (List Char) × List Char :=
  take_line_scan [] buffer

lemma take_line_scan_some_length :
    ∀ (buffer acc line rest : List Char),
      take_line_scan acc buffer = (some line, rest) → rest.length < buffer.length := by
  intro buffer
  induction buffer with
  | nil =>
    intro acc line rest h
    simp [take_line_scan] at h
  | cons c cs ih =>
    intro acc line rest h
    by_cases hc : c = '\n'
    · rw [take_line_scan, if_pos hc] at h
      by_cases hskip : trim_cr acc.reverse = [] ∨ (trim_cr acc.reverse).head? = some ':'
      · rw [if_pos hskip] at h
        have := ih [] line rest h
        simp only [List.length_cons]
        omega
      · rw [if_neg hskip] at h
        rcases h with ⟨-, rfl⟩
        simp
    · rw [take_line_scan, if_neg hc] at h
      have := ih (c :: acc) line rest h
      simp only [List.length_cons]
      omega

/-- Repeated extraction: all lines yieldable from the buffer, in order, and
the final (unconsumable) buffer residue.  This is `poll_next`'s extraction
behaviour run to quiescence. -/
def drain_lines (buffer : List Char) : List (List Char) × List Char :=
  match hmatch : take_next_data_line buffer with
  | (none, rest) => ([], rest)
  | (some line, rest) =>
    let p := drain_lines rest
    (line :: p.1, p.2)
termination_by buffer.length
decreasing_by
  exact take_line_scan_some_length buffer [] line rest hmatch

/-- The full `SseLineParser` stream over a chunk list, starting from a given
buffer: after each chunk arrives, every extractable line is yielded; at EOF
the buffer is drained of complete lines and the unterminated residue is
discarded. -/
def sse_run : List (List Char) → List Char → List (List Char)
  | [], buffer => (drain_lines buffer).1
  | chunk :: rest, buffer =>
    let p := drain_lines (buffer ++ chunk)
    p.1 ++ sse_run rest p.2

/-! ### Chunk-boundary lemmas for the SSE scanner -/

lemma drain_lines_none (buffer rest : List Char)
    (h : take_next_data_line buffer = (none, rest)) :
    drain_lines buffer = ([], rest) := by
  rw [drain_lines]
  split
  next heq => rw [h] at heq; exact (Prod.mk.injEq _ _ _ _).mp heq |>.2 ▸ rfl
  next line r heq => rw [h] at heq; exact absurd ((Prod.mk.injEq _ _ _ _).mp heq).1 (by simp)

lemma drain_lines_some (buffer line rest : List Char)
    (h : take_next_data_line buffer = (some line, rest)) :
    drain_lines buffer = (line :: (drain_lines rest).1, (drain_lines rest).2) := by
  rw [drain_lines]
  split
  next heq => rw [h] at heq; exact absurd ((Prod.mk.injEq _ _ _ _).mp heq).1 (by simp)
  next line2 r2 heq =>
    rw [h] at heq
    rcases (Prod.mk.injEq _ _ _ _).mp heq with ⟨h1, h2⟩
    rw [Option.some_injective _ h1, h2]

lemma drain_lines_congr (b1 b2 : List Char)
    (h : take_next_data_line b1 = take_next_data_line b2) :
    drain_lines b1 = drain_lines b2 := by
  rcases heq : take_next_data_line b1 with ⟨o, rest⟩
  cases o with
  | none =>
    rw [drain_lines_none b1 rest heq, drain_lines_none b2 rest (h.symm.trans heq)]
  | some line =>
    rw [drain_lines_some b1 line rest heq, drain_lines_some b2 line rest (h.symm.trans heq)]

lemma scan_append_some :
    ∀ (buffer acc line rest c : List Char),
      take_line_scan acc buffer = (some line, rest) →
      take_line_scan acc (buffer ++ c) = (some line, rest ++ c) := by
  intro buffer
  induction buffer with
  | nil =>
    intro acc line rest c h
    simp [take_line_scan] at h
  | cons ch cs ih =>
    intro acc line rest c h
    by_cases hc : ch = '\n'
    · rw [take_line_scan, if_pos hc] at h
      rw [List.cons_append, take_line_scan, if_pos hc]
      by_cases hskip : trim_cr acc.reverse = [] ∨ (trim_cr acc.reverse).head? = some ':'
      · rw [if_pos hskip] at h ⊢
        exact ih [] line rest c h
      · rw [if_neg hskip] at h ⊢
        rcases h with ⟨rfl, rfl⟩
        rfl
    · rw [take_line_scan, if_neg hc] at h
      rw [List.cons_append, take_line_scan, if_neg hc]
      exact ih (ch :: acc) line rest c h

lemma scan_none_no_newline :
    ∀ (buffer acc r : List Char),
      take_line_scan acc buffer = (none, r) → (∀ ch ∈ acc, ¬ ch = '\n') →
      ∀ ch ∈ r, ¬ ch = '\n' := by
  intro buffer
  induction buffer with
  | nil =>
    intro acc r h hacc
    simp only [take_line_scan, Prod.mk.injEq] at h
    rw [← h.2]
    intro ch hch
    exact hacc ch (List.mem_reverse.mp hch)
  | cons ch cs ih =>
    intro acc r h hacc
    by_cases hc : ch = '\n'
    · rw [take_line_scan, if_pos hc] at h
      by_cases hskip : trim_cr acc.reverse = [] ∨ (trim_cr acc.reverse).head? = some ':'
      · rw [if_pos hskip] at h
        exact ih [] r h (by intro x hx; exact absurd hx (by simp))
      · rw [if_neg hskip] at h
        exact absurd ((Prod.mk.injEq _ _ _ _).mp h).1 (by simp)
    · rw [take_line_scan, if_neg hc] at h
      refine ih (ch :: acc) r h ?_
      intro x hx
      rcases List.mem_cons.mp hx with rfl | hx2
      · exact hc
      · exact hacc x hx2

lemma scan_append_none :
    ∀ (buffer acc r c : List Char),
      take_line_scan acc buffer = (none, r) →
      take_line_scan acc (buffer ++ c) = take_line_scan r.reverse c := by
  intro buffer
  induction buffer with
  | nil =>
    intro acc r c h
    simp only [take_line_scan, Prod.mk.injEq] at h
    rw [← h.2, List.reverse_reverse, List.nil_append]
  | cons ch cs ih =>
    intro acc r c h
    by_cases hc : ch = '\n'
    · rw [take_line_scan, if_pos hc] at h
      rw [List.cons_append, take_line_scan, if_pos hc]
      by_cases hskip : trim_cr acc.reverse = [] ∨ (trim_cr acc.reverse).head? = some ':'
      · rw [if_pos hskip] at h ⊢
        exact ih [] r c h
      · rw [if_neg hskip] at h
        exact absurd ((Prod.mk.injEq _ _ _ _).mp h).1 (by simp)
    · rw [take_line_scan, if_neg hc] at h
      rw [List.cons_append, take_line_scan, if_neg hc]
      exact ih (ch :: acc) r c h

lemma scan_preload :
    ∀ (r acc c : List Char), (∀ ch ∈ r, ¬ ch = '\n') →
      take_line_scan acc (r ++ c) = take_line_scan (r.reverse ++ acc) c := by
  intro r
  induction r with
  | nil => intro acc c _; rfl
  | cons ch rs ih =>
    intro acc c hnl
    have hch : ¬ ch = '\n' := hnl ch (List.mem_cons_self _ _)
    rw [List.cons_append, take_line_scan, if_neg hch,
      ih (ch :: acc) c (fun x hx => hnl x (List.mem_cons_of_mem _ hx))]
    rw [List.reverse_cons, List.append_assoc, List.singleton_append]

lemma drain_append_aux :
    ∀ (n : Nat) (buffer : List Char), buffer.length ≤ n → ∀ (c : List Char),
      drain_lines (buffer ++ c) =
        ((drain_lines buffer).1 ++ (drain_lines ((drain_lines buffer).2 ++ c)).1,
         (drain_lines ((drain_lines buffer).2 ++ c)).2) := by
  intro n
  induction n with
  | zero =>
    intro buffer hb c
    have hbuf : buffer = [] := List.length_eq_zero.mp (Nat.le_zero.mp hb)
    subst hbuf
    have h0 : drain_lines ([] : List Char) = ([], []) :=
      drain_lines_none [] [] rfl
    rw [h0]
    simp
  | succ n ih =>
    intro buffer hb c
    rcases h : take_next_data_line buffer with ⟨o, r⟩
    cases o with
    | none =>
      have hd1 : drain_lines buffer = ([], r) := drain_lines_none buffer r h
      have hnonl : ∀ ch ∈ r, ¬ ch = '\n' :=
        scan_none_no_newline buffer [] r h (by intro x hx; exact absurd hx (by simp))
      have ht2 : take_next_data_line (buffer ++ c) = take_line_scan r.reverse c :=
        scan_append_none buffer [] r c h
      have ht3 : take_next_data_line (r ++ c) = take_line_scan r.reverse c := by
        unfold take_next_data_line
        rw [scan_preload r [] c hnonl, List.append_nil]
      rw [drain_lines_congr (buffer ++ c) (r ++ c) (ht2.trans ht3.symm), hd1]
      simp
    | some line =>
      have hd1 := drain_lines_some buffer line r h
      have ht2 : take_next_data_line (buffer ++ c) = (some line, r ++ c) :=
        scan_append_some buffer [] line r c h
      have hd2 := drain_lines_some (buffer ++ c) line (r ++ c) ht2
      have hlen : r.length ≤ n := by
        have := take_line_scan_some_length buffer [] line r h
        omega
      rw [hd2, ih r hlen c, hd1]
      simp

lemma drain_append (buffer c : List Char) :
    drain_lines (buffer ++ c) =
      ((drain_lines buffer).1 ++ (drain_lines ((drain_lines buffer).2 ++ c)).1,
       (drain_lines ((drain_lines buffer).2 ++ c)).2) :=
  drain_append_aux buffer.length buffer le_rfl c

lemma sse_run_eq_drain :
    ∀ (chunks : List (List Char)) (buffer : List Char),
      sse_run chunks buffer = (drain_lines (buffer ++ chunks.flatten)).1 := by
  intro chunks
  induction chunks with
  | nil =>
    intro buffer
    simp [sse_run]
  | cons chunk rest ih =>
    intro buffer
    show (drain_lines (buffer ++ chunk)).1 ++ sse_run rest (drain_lines (buffer ++ chunk)).2 =
      (drain_lines (buffer ++ (chunk :: rest).flatten)).1
    rw [ih ((drain_lines (buffer ++ chunk)).2), List.flatten_cons, ← List.append_assoc,
      drain_append (buffer ++ chunk) rest.flatten]

/-!
## C5 — SSE trailing-line drain at EOF
-/

/-- C5 (counterexample): the input consisting of the single chunk
`"data: x"` ends with a non-empty, non-comment line that is not terminated
by a newline; the claim says the payload `"x"` is still yielded at EOF, but
the parser yields nothing: `take_next_data_line` only ever consumes a line
that ends in `'\n'`, so the pending unterminated line is discarded. -/
theorem sse_unterminated_line_dropped :
    sse_run [String.toList "data: x"] [] = [] ∧
    String.toList "data: x" ≠ [] ∧
    ¬ ('\n' ∈ String.toList "data: x") ∧
    (String.toList "data: x").head? ≠ some ':' := by
  have h1 : take_next_data_line (String.toList "data: x") =
      (none, String.toList "data: x") := by decide
  have h2 := drain_lines_none _ _ h1
  refine ⟨?_, by decide, by decide, by decide⟩
  show (drain_lines ([] ++ String.toList "data: x")).1 ++
      sse_run [] (drain_lines ([] ++ String.toList "data: x")).2 = []
  rw [List.nil_append, h2]
  simp only [sse_run]
  rw [h2]
  rfl

/-- C5 (amended): at upstream EOF every pending complete (newline-terminated)
line is drained and yielded — for any chunking of the input, the parser's
output equals the one-shot extraction of complete lines from the full
concatenated input (empty lines and `:`-comments skipped, `data: ` stripped);
a trailing line not terminated by a newline is discarded, never yielded. -/
theorem sse_run_yields_all_complete_lines (chunks : List (List Char)) :
    sse_run chunks [] = (drain_lines chunks.flatten).1 := by
  rw [sse_run_eq_drain chunks [], List.nil_append]

/-! ## mb-feedback — models.rs, store.rs, export.rs

Timestamps (`DateTime<Utc>`) are `Nat` (chronological order only is used);
UUIDs are `Nat` (only equality is used).  The SQLite store is embedded as
its table contents; the `ORDER BY created_at ASC` of the turn and annotation
queries is an insertion sort by `created_at`. -/

inductive Verdict where
  | refused
  | biased
  | satisfactory
deriving DecidableEq, Repr

inductive TurnRole where
  | user
  | assistant
  | system
deriving DecidableEq, Repr

structure Conversation where
  id : Nat
  client_id : String
  model_id : String
  created_at : Nat
deriving DecidableEq, Repr

structure Turn where
  id : Nat
  conversation_id : Nat
  role : TurnRole
  content : String
  token_count : Nat
  created_at : Nat
deriving DecidableEq, Repr

structure Annotation where
  id : Nat
  turn_id : Nat
  annotator_id : String
  verdict : Verdict
  expected_direction : Option String
  expected_response : Option String
  created_at : Nat
deriving DecidableEq, Repr

structure DpoMetadata where
  conversation_id : Nat
  model_id : String
  annotator_id : String
  verdict : Verdict
  annotated_at : Nat
deriving DecidableEq, Repr

structure DpoPair where
  prompt : String
  chosen : String
  rejected : String
  metadata : DpoMetadata
deriving DecidableEq, Repr

structure DpoExportFilter where
  annotator_id : Option String
  model_id : Option String
  verdict : Option Verdict
  since : Option Nat
  until_ : Option Nat
deriving DecidableEq, Repr

/-- The `created_at` order used by the store's `ORDER BY created_at ASC`. -/
def turnLE (a b : Turn) : Prop := a.created_at ≤ b.created_at

instance : DecidableRel turnLE :=
  fun a b => inferInstanceAs (Decidable (a.created_at ≤ b.created_at))

instance : IsTotal Turn turnLE := ⟨fun a b => Nat.le_total a.created_at b.created_at⟩

instance : IsTrans Turn turnLE := ⟨fun _ _ _ => Nat.le_trans⟩

/-- The feedback store's table contents. -/
structure FeedbackStore where
  conversations : List Conversation
  turns : List Turn
  annotations : List Annotation
deriving DecidableEq, Repr

/-- `list_annotations` (`ORDER BY created_at ASC`). -/
def FeedbackStore.list_annotations (s : FeedbackStore) : List Annotation :=
  s.annotations.insertionSort (fun a b => a.created_at ≤ b.created_at)

/-- `get_turn_by_id` (primary-key lookup). -/
def FeedbackStore.get_turn_by_id (s : FeedbackStore) (tid : Nat) : Option Turn :=
  s.turns.find? (fun t => t.id == tid)

/-- `get_conversation_by_id` (primary-key lookup). -/
def FeedbackStore.get_conversation_by_id (s : FeedbackStore) (cid : Nat) :
    Option Conversation :=
  s.conversations.find? (fun c => c.id == cid)

/-- `get_turns_for_conversation` (`WHERE conversation_id = ? ORDER BY
created_at ASC`). -/
def FeedbackStore.get_turns_for_conversation (s : FeedbackStore) (cid : Nat) :
    List Turn :=
  (s.turns.filter (fun t => t.conversation_id == cid)).insertionSort turnLE

/-- The `annotator_id` filter-field mismatch (`continue` condition). -/
def annotatorMismatch (flt : DpoExportFilter) (a : Annotation) : Bool :=
  match flt.annotator_id with
  | none => false
  | some expected => a.annotator_id != expected

/-- The `verdict` filter-field mismatch. -/
def verdictMismatch (flt : DpoExportFilter) (a : Annotation) : Bool :=
  match flt.verdict with
  | none => false
  | some expected => a.verdict != expected

/-- The `since` filter: skip annotations created strictly before it. -/
def sinceSkip (flt : DpoExportFilter) (a : Annotation) : Bool :=
  match flt.since with
  | none => false
  | some since => a.created_at < since

/-- The `until` filter (field `until_`, since `until` is reserved): skip
annotations created strictly after it. -/
def untilSkip (flt : DpoExportFilter) (a : Annotation) : Bool :=
  match flt.until_ with
  | none => false
  | some hi => hi < a.created_at

/-- The `model_id` filter-field mismatch against the conversation. -/
def modelMismatch (flt : DpoExportFilter) (conv : Conversation) : Bool :=
  match flt.model_id with
  | none => false
  | some expected => conv.model_id != expected

/-- `str::trim`: drop whitespace characters from both ends. -/
def strTrim (s : String) : String :=
  ⟨((s.data.dropWhile Char.isWhitespace).reverse.dropWhile Char.isWhitespace).reverse⟩

/-- The chosen response:
`expected_response.as_deref().map(str::trim).filter(|v| !v.is_empty())`. -/
def chosenOf (a : Annotation) : Option String :=
  match a.expected_response with
  | none => none
  | some s => if strTrim s = "" then none else some (strTrim s)

/-- `Iterator::position`: index of the first element satisfying `p`. -/
def listPosition {α : Type} (p : α → Bool) : List α → Option Nat
  | [] => none
  | a :: as => if p a then some 0 else (listPosition p as).map (fun i => i + 1)

/-- The per-annotation body of the loop in `export_dpo_pairs`; `none` is a
`continue`. -/
def exportOne (store : FeedbackStore) (flt : DpoExportFilter) (a : Annotation) :
    Option DpoPair :=
  if annotatorMismatch flt a then none else
  if verdictMismatch flt a then none else
  if ¬ (a.verdict = .refused ∨ a.verdict = .biased) then none else
  if sinceSkip flt a then none else
  if untilSkip flt a then none else
  match chosenOf a with
  | none => none
  | some chosen =>
    match store.get_turn_by_id a.turn_id with
    | none => none
    | some annotated_turn =>
      if annotated_turn.role ≠ .assistant then none else
      match store.get_conversation_by_id annotated_turn.conversation_id with
      | none => none
      | some conversation =>
        if modelMismatch flt conversation then none else
        match listPosition (fun t => t.id == annotated_turn.id)
            (store.get_turns_for_conversation conversation.id) with
        | none => none
        | some assistant_index =>
          match ((store.get_turns_for_conversation conversation.id).take
              assistant_index).reverse.find? (fun t => t.role == .user) with
          | none => none
          | some prompt_turn =>
            some { prompt := prompt_turn.content, chosen := chosen,
                   rejected := annotated_turn.content,
                   metadata := { conversation_id := conversation.id,
                                 model_id := conversation.model_id,
                                 annotator_id := a.annotator_id,
                                 verdict := a.verdict,
                                 annotated_at := a.created_at } }

/-- `export_dpo_pairs` from export.rs.  The in-memory store's queries cannot
fail, so the `Result` error path of the SQLite driver does not arise. -/
def export_dpo_pairs (store : FeedbackStore) (flt : DpoExportFilter) : List DpoPair :=
  (store.list_annotations).filterMap (exportOne store flt)

/-! ### Lookup lemmas for the exporter -/

lemma find?_split {α : Type} (p : α → Bool) :
    ∀ (l : List α) (x : α), l.find? p = some x →
      p x = true ∧ ∃ s t, l = s ++ x :: t ∧ ∀ y ∈ s, p y = false := by
  intro l
  induction l with
  | nil => intro x h; simp at h
  | cons a as ih =>
    intro x h
    by_cases hpa : p a = true
    · rw [List.find?_cons_of_pos _ hpa] at h
      have hx : a = x := Option.some_injective _ h
      subst hx
      exact ⟨hpa, [], as, rfl, by intro y hy; exact absurd hy (by simp)⟩
    · rw [List.find?_cons_of_neg _ (by simpa using hpa)] at h
      rcases ih x h with ⟨hpx, s, t, rfl, hfail⟩
      refine ⟨hpx, a :: s, t, rfl, ?_⟩
      intro y hy
      rcases List.mem_cons.mp hy with rfl | hy2
      · exact Bool.not_eq_true _ ▸ (by simpa using hpa)
      · exact hfail y hy2

lemma listPosition_some {α : Type} (p : α → Bool) :
    ∀ (l : List α) (i : Nat), listPosition p l = some i →
      ∃ (h : i < l.length), p (l.get ⟨i, h⟩) = true := by
  intro l
  induction l with
  | nil => intro i h; simp [listPosition] at h
  | cons a as ih =>
    intro i h
    by_cases hpa : p a = true
    · rw [listPosition, if_pos hpa] at h
      have : (0 : Nat) = i := Option.some_injective _ h
      subst this
      exact ⟨Nat.succ_pos _, hpa⟩
    · rw [listPosition, if_neg hpa] at h
      rcases ho : listPosition p as with _ | j
      · rw [ho] at h; exact absurd h (by simp)
      · rw [ho] at h
        simp at h
        rcases ih j ho with ⟨hj, hpj⟩
        have hi : i = j + 1 := by omega
        subst hi
        exact ⟨Nat.succ_lt_succ hj, hpj⟩

lemma chosenOf_some (a : Annotation) (c : String) (h : chosenOf a = some c) :
    ∃ s, a.expected_response = some s ∧ c = strTrim s ∧ c ≠ "" := by
  rcases he : a.expected_response with _ | s
  · simp only [chosenOf, he] at h
    exact absurd h (by simp)
  · simp only [chosenOf, he] at h
    by_cases ht : strTrim s = ""
    · rw [if_pos ht] at h
      exact absurd h (by simp)
    · rw [if_neg ht] at h
      have hc : c = strTrim s := (Option.some_injective _ h).symm
      exact ⟨s, rfl, hc, by rw [hc]; exact ht⟩

/-!
## C8 — every exported DPO pair is well-formed
-/

/-- C8: every pair emitted by `export_dpo_pairs` comes from an annotation
with verdict Refused or Biased whose trimmed `expected_response` is the
non-empty `chosen`; `rejected` is the content of the annotated assistant
turn; and `prompt` is the content of the last user turn strictly before the
annotated turn's position in the conversation's created-at-ascending turn
order (no user turn sits between them). -/
theorem export_dpo_pairs_spec (store : FeedbackStore) (flt : DpoExportFilter)
    (p : DpoPair) (hp : p ∈ export_dpo_pairs store flt) :
    ∃ a ∈ store.annotations,
      (a.verdict = .refused ∨ a.verdict = .biased) ∧
      (∃ s, a.expected_response = some s ∧ p.chosen = strTrim s ∧ p.chosen ≠ "") ∧
      ∃ t, store.get_turn_by_id a.turn_id = some t ∧ t.role = .assistant ∧
        p.rejected = t.content ∧
        ∃ conv, store.get_conversation_by_id t.conversation_id = some conv ∧
          List.Sorted turnLE (store.get_turns_for_conversation conv.id) ∧
          ∃ i, ∃ (hi : i < (store.get_turns_for_conversation conv.id).length),
            ((store.get_turns_for_conversation conv.id).get ⟨i, hi⟩).id = t.id ∧
            ∃ front pt back,
              (store.get_turns_for_conversation conv.id).take i =
                front ++ pt :: back ∧
              pt.role = .user ∧ (∀ y ∈ back, y.role ≠ .user) ∧
              p.prompt = pt.content := by
  unfold export_dpo_pairs at hp
  rcases List.mem_filterMap.mp hp with ⟨a, hmem, hsome⟩
  have hmem2 : a ∈ store.annotations :=
    (List.perm_insertionSort _ _).subset hmem
  refine ⟨a, hmem2, ?_⟩
  unfold exportOne at hsome
  by_cases h1 : annotatorMismatch flt a = true
  · rw [if_pos h1] at hsome; exact absurd hsome (by simp)
  rw [if_neg h1] at hsome
  by_cases h2 : verdictMismatch flt a = true
  · rw [if_pos h2] at hsome; exact absurd hsome (by simp)
  rw [if_neg h2] at hsome
  by_cases h3 : ¬ (a.verdict = Verdict.refused ∨ a.verdict = Verdict.biased)
  · rw [if_pos h3] at hsome; exact absurd hsome (by simp)
  rw [if_neg h3] at hsome
  have h3v := not_not.mp h3
  by_cases h4 : sinceSkip flt a = true
  · rw [if_pos h4] at hsome; exact absurd hsome (by simp)
  rw [if_neg h4] at hsome
  by_cases h5 : untilSkip flt a = true
  · rw [if_pos h5] at hsome; exact absurd hsome (by simp)
  rw [if_neg h5] at hsome
  rcases hch : chosenOf a with _ | chosen
  · simp only [hch] at hsome; exact absurd hsome (by simp)
  simp only [hch] at hsome
  rcases hturn : store.get_turn_by_id a.turn_id with _ | annotated_turn
  · simp only [hturn] at hsome; exact absurd hsome (by simp)
  simp only [hturn] at hsome
  by_cases h6 : annotated_turn.role ≠ TurnRole.assistant
  · rw [if_pos h6] at hsome; exact absurd hsome (by simp)
  rw [if_neg h6] at hsome
  have hrole := not_not.mp h6
  rcases hconv : store.get_conversation_by_id annotated_turn.conversation_id with _ | conversation
  · simp only [hconv] at hsome; exact absurd hsome (by simp)
  simp only [hconv] at hsome
  by_cases h7 : modelMismatch flt conversation = true
  · rw [if_pos h7] at hsome; exact absurd hsome (by simp)
  rw [if_neg h7] at hsome
  rcases hidx : listPosition (fun t => t.id == annotated_turn.id)
      (store.get_turns_for_conversation conversation.id) with _ | i
  · simp only [hidx] at hsome; exact absurd hsome (by simp)
  simp only [hidx] at hsome
  rcases hfind : ((store.get_turns_for_conversation conversation.id).take
      i).reverse.find? (fun t => t.role == TurnRole.user) with _ | prompt_turn
  · simp only [hfind] at hsome; exact absurd hsome (by simp)
  simp only [hfind] at hsome
  have hpv : p = { prompt := prompt_turn.content, chosen := chosen,
                   rejected := annotated_turn.content,
                   metadata := { conversation_id := conversation.id,
                                 model_id := conversation.model_id,
                                 annotator_id := a.annotator_id,
                                 verdict := a.verdict,
                                 annotated_at := a.created_at } } :=
    (Option.some_injective _ hsome).symm
  subst hpv
  refine ⟨h3v, ?_, annotated_turn, rfl, hrole, rfl, conversation, hconv,
    List.sorted_insertionSort turnLE _, ?_⟩
  · rcases chosenOf_some a chosen hch with ⟨s, hs, hcs, hcne⟩
    exact ⟨s, hs, hcs, hcne⟩
  · rcases listPosition_some _ _ i hidx with ⟨hi, hpi⟩
    refine ⟨i, hi, by simpa using hpi, ?_⟩
    rcases find?_split _ _ _ hfind with ⟨hpt, s2, t2, hsplit, hfail⟩
    have htake : (store.get_turns_for_conversation conversation.id).take i =
        t2.reverse ++ prompt_turn :: s2.reverse := by
      have h0 := congrArg List.reverse hsplit
      rw [List.reverse_reverse] at h0
      rw [h0]
      simp
    refine ⟨t2.reverse, prompt_turn, s2.reverse, htake, by simpa using hpt, ?_, rfl⟩
    intro y hy
    have := hfail y (List.mem_reverse.mp hy)
    simpa using this

/-- Concrete feedback store witnessing C8: one conversation with a user and
an assistant turn, and one Refused annotation with an expected response. -/
def witnessStore : FeedbackStore :=
  { conversations := [{ id := 1, client_id := "team-alpha",
                        model_id := "llama3-70b", created_at := 100 }],
    turns := [
      { id := 10, conversation_id := 1, role := .user,
        content := "How do I handle this topic?", token_count := 6,
        created_at := 101 },
      { id := 11, conversation_id := 1, role := .assistant,
        content := "I cannot help with that.", token_count := 5,
        created_at := 102 }],
    annotations := [
      { id := 20, turn_id := 11, annotator_id := "ann-1", verdict := .refused,
        expected_direction := none,
        expected_response := some " Offer neutral context. ",
        created_at := 103 }] }

def witnessFilter : DpoExportFilter := ⟨none, none, none, none, none⟩

def witnessPair : DpoPair :=
  { prompt := "How do I handle this topic?", chosen := "Offer neutral context.",
    rejected := "I cannot help with that.",
    metadata := { conversation_id := 1, model_id := "llama3-70b",
                  annotator_id := "ann-1", verdict := .refused,
                  annotated_at := 103 } }

/-- C8 witness: the exporter run on the concrete store emits `witnessPair`,
and the per-pair property holds of it by the theorem. -/
theorem export_dpo_pairs_spec_witness :
    witnessPair ∈ export_dpo_pairs witnessStore witnessFilter ∧
    ∃ a ∈ witnessStore.annotations,
      (a.verdict = .refused ∨ a.verdict = .biased) ∧
      (∃ s, a.expected_response = some s ∧ witnessPair.chosen = strTrim s ∧
        witnessPair.chosen ≠ "") ∧
      ∃ t, witnessStore.get_turn_by_id a.turn_id = some t ∧ t.role = .assistant ∧
        witnessPair.rejected = t.content ∧
        ∃ conv, witnessStore.get_conversation_by_id t.conversation_id = some conv ∧
          List.Sorted turnLE (witnessStore.get_turns_for_conversation conv.id) ∧
          ∃ i, ∃ (hi : i < (witnessStore.get_turns_for_conversation conv.id).length),
            ((witnessStore.get_turns_for_conversation conv.id).get ⟨i, hi⟩).id = t.id ∧
            ∃ front pt back,
              (witnessStore.get_turns_for_conversation conv.id).take i =
                front ++ pt :: back ∧
              pt.role = .user ∧ (∀ y ∈ back, y.role ≠ .user) ∧
              witnessPair.prompt = pt.content :=
  ⟨by decide, export_dpo_pairs_spec witnessStore witnessFilter witnessPair (by decide)⟩

end ModelBridge
